import Mathlib

/-!
# Verification of the Somewhere repository core

Shallow embedding of the core of the repository:

* `src/app/core/parlay.py`   — odds conversion, parlay synthesis and ranking;
* `src/app/core/cache.py`    — artifact cache (`latest_file`, `load_json`);
* `src/app/services/worker.py` — recompute/publish coordinator.

Modelling conventions:

* Python floats are modelled as rationals (`ℚ`); the arithmetic the code
  performs (`+ - * /` on small magnitudes) is exact in the claims' sense.
* A Python value that may fail to parse as `int` is `PyVal`: it either
  carries the integer it parses to, or is unparseable.
* Exceptions escaping to the caller are modelled with `Except Unit`;
  `ZeroDivisionError` raised by `/` is modelled in `pyDiv`.
* Python's `sorted` is a stable ascending sort by key; it is embedded as the
  stable insertion sort `pySorted` below.
* The file system is modelled as a list of directory entries (names, or
  name/target pairs for symlinks, or name/contents pairs where contents
  matter).  `Path.glob` enumerates names in unspecified order, hence the
  directory is an arbitrary list.
-/

deriving instance DecidableEq for Except

namespace Somewhere

/-! ## Python primitives -/

/-- A raw market-price value as received by `int(a)`: it either parses to an
integer or raises, which `american_to_decimal` catches. -/
inductive PyVal where
  | intLike (n : ℤ)
  | unparseable
  deriving DecidableEq

/-- Python float division `x / y`: raises `ZeroDivisionError` when `y` is 0. -/
def pyDiv (x y : ℚ) : Except Unit ℚ :=
  if y = 0 then .error () else .ok (x / y)

/-- Python `x or 0` on an optional number (`None` and `0.0` are falsy, and a
truthy number is returned unchanged, so the value is `getD 0`). -/
def pyOrZero (o : Option ℚ) : ℚ := o.getD 0

/-- Stable insertion of `x` into an already sorted list: `x` goes in front of
the first element `y` with `le x y`, so every element strictly smaller than
`x` stays in front of it and every element tied with `x` (which came later in
the original list) ends up behind it — the insertion step of a stable
ascending sort. -/
def insertLE (le : α → α → Bool) (x : α) : List α → List α
  | [] => [x]
  | y :: ys => if le x y then x :: y :: ys else y :: insertLE le x ys

/-- Python's `sorted(l, key=...)` : a stable ascending sort by the Boolean
relation `le` (which is a total preorder for every use in this file). -/
def pySorted (le : α → α → Bool) : List α → List α
  | [] => []
  | x :: xs => insertLE le x (pySorted le xs)

/-- Python slicing `l[:k]` for integer `k`: for `k ≥ 0` the first `k`
elements, for `k < 0` everything but the last `-k` elements. -/
def pySliceTo (l : List α) (k : ℤ) : List α :=
  if 0 ≤ k then l.take k.toNat else l.take (l.length - (-k).toNat)

/-! ## src/app/core/parlay.py -/

/-- Function `american_to_decimal` from `src/app/core/parlay.py`:

```python
def american_to_decimal(a):
    try:
        a = int(a)
    except Exception:
        return None
    if a > 0:
        return 1.0 + a / 100.0
    else:
        return 1.0 + 100.0 / (-a)
```

The `try` only covers the parse; the division is outside it. -/
def american_to_decimal (a : PyVal) : Except Unit (Option ℚ) :=
  match a with
  | .unparseable => .ok none
  | .intLike n =>
    if 0 < n then .ok (some (1 + (n : ℚ) / 100))
    else do
      let q ← pyDiv 100 (-(n : ℚ))
      pure (some (1 + q))

/-- A caller-supplied selection: `player`, `model_prob`, `market_price`
(each may be absent). -/
structure Selection where
  player : Option String
  model_prob : Option ℚ
  market_price : Option PyVal
  deriving DecidableEq

/-- A selection enriched with the derived `decimal` and `ev_per_1` fields
(the Python code builds `{**s, 'decimal': dec, 'ev_per_1': ev}`). -/
structure Enriched where
  player : Option String
  model_prob : Option ℚ
  market_price : Option PyVal
  decimal : Option ℚ
  ev_per_1 : Option ℚ
  deriving DecidableEq

/-- The enrichment step of `suggest_parlays`, for one selection:

```python
model_prob = s.get('model_prob')
mprice = s.get('market_price')
dec = american_to_decimal(mprice) if mprice is not None else None
ev = None
if dec and model_prob is not None:
    ev = model_prob * dec - 1.0
out.append({**s, 'decimal': dec, 'ev_per_1': ev})
```

`if dec` is Python truthiness: `None` and `0.0` are falsy. -/
def enrich (s : Selection) : Except Unit Enriched :=
  (match s.market_price with
    | none => Except.ok none
    | some p => american_to_decimal p).bind fun dec =>
    Except.ok ⟨s.player, s.model_prob, s.market_price, dec,
      match dec, s.model_prob with
      | some d, some mp => if d = 0 then none else some (mp * d - 1)
      | _, _ => none⟩

/-- The enrichment loop over all selections (the first raised exception
propagates, later selections are not visited). -/
def enrichAll : List Selection → Except Unit (List Enriched)
  | [] => .ok []
  | s :: ss => do
    let e ← enrich s
    let es ← enrichAll ss
    pure (e :: es)

/-- Sort key for enriched selections:
`key=lambda x: (x['ev_per_1'] is None, -(x['ev_per_1'] or 0))`. -/
def selKey (e : Enriched) : Bool × ℚ := (e.ev_per_1.isNone, -(pyOrZero e.ev_per_1))

/-- Ascending comparison of Python key tuples `(bool, number)`:
lexicographic with `False < True`. -/
def keyLE (a b : Bool × ℚ) : Bool :=
  if a.1 = b.1 then decide (a.2 ≤ b.2) else a.1 == false

/-- The total preorder `sorted` uses on enriched selections. -/
def selLE (a b : Enriched) : Bool := keyLE (selKey a) (selKey b)

/-- Model of `itertools.combinations(l, r)`: every size-`r` subsequence of `l`, in
lexicographic order of member positions. -/
def pyCombinations : List α → ℕ → List (List α)
  | _, 0 => [[]]
  | [], _ + 1 => []
  | x :: xs, r + 1 => (pyCombinations xs r).map (x :: ·) ++ pyCombinations xs (r + 1)

/-- One scored combination
(`{'legs': ..., 'implied_payout': ..., 'joint_prob': ..., 'ev_per_1': ...}`). -/
structure Combo where
  legs : List (Option String)
  implied_payout : ℚ
  joint_prob : ℚ
  ev_per_1 : Option ℚ
  deriving DecidableEq

/-- Scoring of one combination:

```python
probs = [c.get('model_prob') or 0 for c in combo]
market_dec = [c.get('decimal') or 0 for c in combo]
joint_prob = 1.0
for p in probs:
    joint_prob *= p
payout = 1.0
for d in market_dec:
    payout *= d if d else 1.0
ev = joint_prob * payout - 1.0
```
-/
def mkCombo (combo : List Enriched) : Combo :=
  let probs := combo.map (fun c => pyOrZero c.model_prob)
  let market_dec := combo.map (fun c => pyOrZero c.decimal)
  let joint_prob := probs.foldl (· * ·) 1
  let payout := market_dec.foldl (fun acc d => acc * (if d = 0 then 1 else d)) 1
  ⟨combo.map (·.player), payout, joint_prob, some (joint_prob * payout - 1)⟩

/-- The combination-enumeration loop: sizes `r = 1 .. m`
(`for r in range(1, max_legs + 1)` after `max_legs = min(max_legs, len(out_sorted))`),
each combination scored by `mkCombo`. -/
def parlayCombos (l : List Enriched) (m : ℕ) : List Combo :=
  (List.range' 1 m).flatMap fun r => (pyCombinations l r).map mkCombo

/-- Sort key for combinations:
`key=lambda x: -x['ev_per_1'] if x['ev_per_1'] is not None else 0`. -/
def comboKey (c : Combo) : ℚ :=
  match c.ev_per_1 with
  | some e => -e
  | none => 0

/-- The total preorder `sorted` uses on combinations. -/
def comboLE (a b : Combo) : Bool := decide (comboKey a ≤ comboKey b)

/-- The result dict `{'selected': ..., 'parlay_suggestions': ...}`. -/
structure RankedResult where
  selected : List Enriched
  parlay_suggestions : List Combo
  deriving DecidableEq

/-- Function `suggest_parlays` from `src/app/core/parlay.py` (defaults
`max_legs=6`, `top_k=20`). -/
def suggest_parlays (selections : List Selection) (max_legs : ℕ := 6)
    (top_k : ℤ := 20) : Except Unit RankedResult :=
  if selections = [] then .ok ⟨[], []⟩
  else do
    let out ← enrichAll selections
    let out_sorted := pySorted selLE out
    let m := min max_legs out_sorted.length
    let combos := parlayCombos out_sorted m
    let combos_sorted := pySorted comboLE combos
    pure ⟨out_sorted, pySliceTo combos_sorted top_k⟩

/-! ## src/app/core/cache.py -/

/-- Lexicographic (code-point) `≤` on file names, the order Python's `sorted`
applies to paths of a single directory. -/
def nameLE : List Char → List Char → Bool
  | [], _ => true
  | _ :: _, [] => false
  | a :: as, b :: bs => if a = b then nameLE as bs else decide (a < b)

/-- Comparison of strings via their character lists. -/
def strLE (a b : String) : Bool := nameLE a.data b.data

/-- Glob matching of a pattern against one name: `*` matches any character
sequence, `?` any single character, anything else itself (names inside one
directory contain no separator). -/
def globMatchChars : List Char → List Char → Bool
  | [], cs => cs.isEmpty
  | '*' :: ps, cs => cs.tails.any fun suf => globMatchChars ps suf
  | '?' :: ps, cs =>
    match cs with
    | [] => false
    | _ :: cs => globMatchChars ps cs
  | p :: ps, cs =>
    match cs with
    | [] => false
    | c :: cs => p == c && globMatchChars ps cs

/-- Whether name `n` matches glob `pat` (`CACHE_DIR.glob(pat)` keeps it). -/
def globMatch (pat n : String) : Bool := globMatchChars pat.data n.data

/-- Function `latest_file` from `src/app/core/cache.py`:

```python
def latest_file(glob_pattern: str):
    files = sorted(CACHE_DIR.glob(glob_pattern))
    return files[-1] if files else None
```

`dir` is the (unordered) listing of the cache directory. -/
def latest_file (dir : List String) (glob_pattern : String) : Option String :=
  let files := pySorted strLE (dir.filter fun n => globMatch glob_pattern n)
  files.getLast?

/-- Function `load_json` from `src/app/core/cache.py`:

```python
def load_json(path_or_name: str):
    p = Path(path_or_name)
    if p.exists():
        return json.loads(p.read_text())
    # allow passing a glob name
    p = latest_file(path_or_name)
    if p:
        return json.loads(p.read_text())
    return None
```

The directory is a list of `(name, contents)` pairs; `json.loads` is an
external library call, taken as a parameter `loads` that may raise. Reading a
name that has vanished from the directory would raise, hence the `.error`
in the unreachable inner branch. -/
def load_json (loads : String → Except Unit J) (dir : List (String × String))
    (path_or_name : String) : Except Unit (Option J) :=
  match dir.find? (fun e => e.1 == path_or_name) with
  | some e => (loads e.2).map some
  | none =>
    match latest_file (dir.map Prod.fst) path_or_name with
    | some p =>
      match dir.find? (fun e => e.1 == p) with
      | some e => (loads e.2).map some
      | none => .error ()
    | none => .ok none

/-! ## src/app/services/worker.py -/

/-- A directory entry of the outputs directory: a regular file or a symlink. -/
inductive Entry where
  | regular (name : String)
  | symlink (name : String) (target : String)
  deriving DecidableEq

/-- The name under which an entry is listed. -/
def Entry.name : Entry → String
  | .regular n => n
  | .symlink n _ => n

/-- Function `recompute_projections` from `src/app/services/worker.py`:

```python
def recompute_projections():
    try:
        subprocess.run(['python3', 'scripts/generate_projections.py'], check=True)
    except Exception as e:
        log.exception('Recompute projections failed: %s', e)
        return False
    files = sorted(OUTPUTS.glob('projections_*.csv'))
    if files:
        latest = files[-1]
        canonical = OUTPUTS / 'projections_latest.csv'
        try:
            if canonical.exists() or canonical.is_symlink():
                canonical.unlink()
            canonical.symlink_to(latest.name)
        except Exception:
            shutil.copy(latest, canonical)   # falls back to a copy (shutil)
    log.info('Recompute complete')
    return True
```

`genOk` is whether the external generation step succeeded; `outputs` is the
listing of the outputs directory after that step.  The symlink branch is the
one modelled: the copy fallback runs only when `symlink_to` itself raises,
which this file-system model does not make happen.  Returns the Python
return value and the resulting directory. -/
def recompute_projections (genOk : Bool) (outputs : List Entry) :
    Bool × List Entry :=
  if !genOk then (false, outputs)
  else
    let files := pySorted strLE
      ((outputs.map Entry.name).filter fun n => globMatch "projections_*.csv" n)
    match files.getLast? with
    | none => (true, outputs)
    | some latest =>
      let canonical := "projections_latest.csv"
      let pruned := outputs.filter fun e => !(e.name == canonical)
      (true, pruned ++ [Entry.symlink canonical latest])

/-- What a name resolves to through one level of symlink indirection, if it
is a symlink in the directory. -/
def resolveLink (dir : List Entry) (n : String) : Option String :=
  match dir.find? (fun e => e.name == n) with
  | some (.symlink _ t) => some t
  | _ => none

/-! ## Lemmas about the stable sort -/

theorem insertLE_perm (le : α → α → Bool) (x : α) (l : List α) :
    (insertLE le x l).Perm (x :: l) := by
  induction l with
  | nil => exact List.Perm.refl _
  | cons y ys ih =>
    rw [insertLE]
    split
    · exact List.Perm.refl _
    · exact (ih.cons y).trans (List.Perm.swap x y ys)

theorem pySorted_perm (le : α → α → Bool) (l : List α) :
    (pySorted le l).Perm l := by
  induction l with
  | nil => exact List.Perm.refl _
  | cons x xs ih => exact (insertLE_perm le x (pySorted le xs)).trans (ih.cons x)

theorem mem_insertLE (le : α → α → Bool) {x y : α} {l : List α} :
    y ∈ insertLE le x l ↔ y = x ∨ y ∈ l := by
  rw [(insertLE_perm le x l).mem_iff, List.mem_cons]

theorem insertLE_pairwise (le : α → α → Bool)
    (htrans : ∀ a b c, le a b = true → le b c = true → le a c = true)
    (htot : ∀ a b, le a b = true ∨ le b a = true)
    {x : α} {l : List α} (hl : l.Pairwise (le · · = true)) :
    (insertLE le x l).Pairwise (le · · = true) := by
  induction l with
  | nil => simp [insertLE]
  | cons y ys ih =>
    rw [insertLE]
    rcases List.pairwise_cons.mp hl with ⟨hy, hys⟩
    split
    case isTrue hxy =>
      refine List.pairwise_cons.mpr ⟨?_, hl⟩
      intro z hz
      rcases List.mem_cons.mp hz with rfl | hz
      · exact hxy
      · exact htrans x y z hxy (hy z hz)
    case isFalse hxy =>
      have hyx : le y x = true := by
        rcases htot x y with h | h
        · exact absurd h hxy
        · exact h
      refine List.pairwise_cons.mpr ⟨?_, ih hys⟩
      intro z hz
      rcases (mem_insertLE le).mp hz with rfl | hz
      · exact hyx
      · exact hy z hz

theorem pySorted_pairwise (le : α → α → Bool)
    (htrans : ∀ a b c, le a b = true → le b c = true → le a c = true)
    (htot : ∀ a b, le a b = true ∨ le b a = true)
    (l : List α) : (pySorted le l).Pairwise (le · · = true) := by
  induction l with
  | nil => simp [pySorted]
  | cons x xs ih => exact insertLE_pairwise le htrans htot ih

/-- In a pairwise-related list, every element is the last one or related to
the last one. -/
theorem pairwise_getLast?_rel {R : α → α → Prop} :
    ∀ {l : List α}, l.Pairwise R → ∀ {m}, l.getLast? = some m →
      ∀ x ∈ l, x = m ∨ R x m := by
  intro l
  induction l with
  | nil => intro _ m hm; simp at hm
  | cons a as ih =>
    intro h m hm x hx
    rcases List.pairwise_cons.mp h with ⟨ha, has⟩
    cases as with
    | nil =>
      simp at hm hx
      subst hm; subst hx; exact Or.inl rfl
    | cons b bs =>
      rw [List.getLast?_cons_cons] at hm
      rcases List.mem_cons.mp hx with rfl | hx
      · have hmmem : m ∈ b :: bs := List.mem_of_mem_getLast? (by rw [hm]; rfl)
        exact Or.inr (ha m hmmem)
      · exact ih has hm x hx

/-! ## Lemmas about the combination enumeration -/

theorem pyCombinations_perm (l : List α) (r : ℕ) :
    (pyCombinations l r).Perm (List.sublistsLen r l) := by
  induction l generalizing r with
  | nil =>
    cases r with
    | zero => simp [pyCombinations]
    | succ r => simp [pyCombinations]
  | cons x xs ih =>
    cases r with
    | zero => simp [pyCombinations]
    | succ r =>
      rw [pyCombinations, List.sublistsLen_succ_cons]
      exact (((ih r).map _).append (ih (r + 1))).trans List.perm_append_comm

theorem length_pyCombinations (l : List α) (r : ℕ) :
    (pyCombinations l r).length = l.length.choose r := by
  rw [(pyCombinations_perm l r).length_eq, List.length_sublistsLen]

theorem mem_pyCombinations {l s : List α} {r : ℕ} :
    s ∈ pyCombinations l r ↔ s.Sublist l ∧ s.length = r := by
  rw [(pyCombinations_perm l r).mem_iff, List.mem_sublistsLen]

theorem nodup_pyCombinations {l : List α} (hl : l.Nodup) (r : ℕ) :
    (pyCombinations l r).Nodup :=
  ((pyCombinations_perm l r).nodup_iff).mpr (List.nodup_sublistsLen r hl)

/-! ## Lemmas about enrichment -/

theorem ok_bind {ε α β : Type _} (x : α) (f : α → Except ε β) :
    (Except.ok x >>= f) = f x := rfl

theorem error_bind {ε α β : Type _} (u : ε) (f : α → Except ε β) :
    ((Except.error u : Except ε α) >>= f) = Except.error u := rfl

theorem pure_eq_ok {ε α : Type _} (x : α) : (pure x : Except ε α) = Except.ok x := rfl

theorem exbind_ok {ε α β : Type _} (x : α) (f : α → Except ε β) :
    (Except.ok x).bind f = f x := rfl

theorem exbind_error {ε α β : Type _} (u : ε) (f : α → Except ε β) :
    (Except.error u : Except ε α).bind f = Except.error u := rfl

theorem american_to_decimal_pos {v : PyVal} {d : ℚ}
    (h : american_to_decimal v = .ok (some d)) : 1 < d := by
  cases v with
  | unparseable => simp [american_to_decimal] at h
  | intLike n =>
    rw [american_to_decimal] at h
    split at h
    case isTrue hn =>
      simp only [Except.ok.injEq, Option.some.injEq] at h
      subst h
      have : (0 : ℚ) < (n : ℚ) / 100 := by
        apply div_pos _ (by norm_num)
        exact_mod_cast hn
      linarith
    case isFalse hn =>
      rw [pyDiv] at h
      split at h
      · rw [error_bind] at h; exact absurd h (by simp)
      case isFalse hz =>
        rw [ok_bind, pure_eq_ok] at h
        simp only [Except.ok.injEq, Option.some.injEq] at h
        subst h
        have hneg : (0 : ℚ) < -(n : ℚ) := by
          rcases lt_or_eq_of_le (not_lt.mp hn) with hlt | heq
          · have : (n : ℚ) < 0 := by exact_mod_cast hlt
            linarith
          · exfalso; apply hz; rw [heq]; simp
        have : (0 : ℚ) < 100 / -(n : ℚ) := div_pos (by norm_num) hneg
        linarith

/-- Characterization of a successful enrichment: the result is built from the
decimal `american_to_decimal` produced (or `none` when the price is absent). -/
theorem enrich_ok {s : Selection} {e : Enriched} (h : enrich s = .ok e) :
    ∃ dec : Option ℚ,
      (match s.market_price with
        | none => Except.ok none
        | some p => american_to_decimal p) = .ok dec ∧
      e = ⟨s.player, s.model_prob, s.market_price, dec,
        match dec, s.model_prob with
        | some d, some mp => if d = 0 then none else some (mp * d - 1)
        | _, _ => none⟩ := by
  rw [enrich] at h
  cases hd : (match s.market_price with
    | none => (Except.ok none : Except Unit (Option ℚ))
    | some p => american_to_decimal p) with
  | error u => rw [hd, exbind_error] at h; exact absurd h (by simp)
  | ok dec =>
    rw [hd, exbind_ok] at h
    simp only [Except.ok.injEq] at h
    exact ⟨dec, rfl, h.symm⟩

theorem enrich_decimal_pos {s : Selection} {e : Enriched} {d : ℚ}
    (h : enrich s = .ok e) (hd : e.decimal = some d) : 1 < d := by
  rcases enrich_ok h with ⟨dec, hdec, rfl⟩
  simp only at hd
  subst hd
  cases hmp : s.market_price with
  | none => rw [hmp] at hdec; simp at hdec
  | some p =>
    rw [hmp] at hdec
    exact american_to_decimal_pos hdec

theorem enrichAll_length : ∀ {ss : List Selection} {out : List Enriched},
    enrichAll ss = .ok out → out.length = ss.length := by
  intro ss
  induction ss with
  | nil => intro out h; simp only [enrichAll, Except.ok.injEq] at h; subst h; rfl
  | cons s ss ih =>
    intro out h
    rw [enrichAll] at h
    cases he : enrich s with
    | error u => rw [he, error_bind] at h; exact absurd h (by simp)
    | ok e =>
      rw [he, ok_bind] at h
      cases hes : enrichAll ss with
      | error u => rw [hes, error_bind] at h; exact absurd h (by simp)
      | ok es =>
        rw [hes, ok_bind, pure_eq_ok] at h
        simp only [Except.ok.injEq] at h
        subst h
        simp [ih hes]

theorem enrichAll_mem : ∀ {ss : List Selection} {out : List Enriched},
    enrichAll ss = .ok out → ∀ e ∈ out, ∃ s ∈ ss, enrich s = .ok e := by
  intro ss
  induction ss with
  | nil =>
    intro out h e he
    simp only [enrichAll, Except.ok.injEq] at h
    subst h; simp at he
  | cons s ss ih =>
    intro out h e he
    rw [enrichAll] at h
    cases hs : enrich s with
    | error u => rw [hs, error_bind] at h; exact absurd h (by simp)
    | ok e0 =>
      rw [hs, ok_bind] at h
      cases hes : enrichAll ss with
      | error u => rw [hes, error_bind] at h; exact absurd h (by simp)
      | ok es =>
        rw [hes, ok_bind, pure_eq_ok] at h
        simp only [Except.ok.injEq] at h
        subst h
        rcases List.mem_cons.mp he with rfl | he
        · exact ⟨s, List.mem_cons_self .., hs⟩
        · rcases ih hes e he with ⟨s', hs', h'⟩
          exact ⟨s', List.mem_cons_of_mem s hs', h'⟩

/-! ## Lemmas about the lexicographic file-name order -/

theorem nameLE_refl : ∀ a, nameLE a a = true
  | [] => rfl
  | c :: cs => by rw [nameLE, if_pos rfl]; exact nameLE_refl cs

theorem nameLE_total : ∀ a b, nameLE a b = true ∨ nameLE b a = true
  | [], _ => Or.inl rfl
  | _ :: _, [] => Or.inr rfl
  | a :: as, b :: bs => by
    rw [nameLE, nameLE]
    by_cases hab : a = b
    · subst hab
      rw [if_pos rfl, if_pos rfl]
      exact nameLE_total as bs
    · have hba : ¬b = a := fun h => hab h.symm
      rw [if_neg hab, if_neg hba]
      rcases lt_or_gt_of_ne hab with h | h
      · exact Or.inl (decide_eq_true h)
      · exact Or.inr (decide_eq_true h)

theorem nameLE_trans : ∀ a b c, nameLE a b = true → nameLE b c = true →
    nameLE a c = true := by
  intro a
  induction a with
  | nil => intro b c _ _; rfl
  | cons x xs ih =>
    intro b c hab hbc
    cases b with
    | nil => simp [nameLE] at hab
    | cons y ys =>
      cases c with
      | nil => simp [nameLE] at hbc
      | cons z zs =>
        rw [nameLE] at hab hbc ⊢
        by_cases hxy : x = y
        · subst hxy
          rw [if_pos rfl] at hab
          by_cases hxz : x = z
          · subst hxz
            rw [if_pos rfl] at hbc ⊢
            exact ih ys zs hab hbc
          · rw [if_neg hxz] at hbc ⊢
            exact hbc
        · rw [if_neg hxy] at hab
          have hxy' : x < y := of_decide_eq_true hab
          by_cases hyz : y = z
          · subst hyz
            rw [if_neg hxy]
            exact hab
          · rw [if_neg hyz] at hbc
            have hyz' : y < z := of_decide_eq_true hbc
            have hxz' : x < z := lt_trans hxy' hyz'
            rw [if_neg (ne_of_lt hxz')]
            exact decide_eq_true hxz'

theorem nameLE_antisymm : ∀ a b, nameLE a b = true → nameLE b a = true → a = b := by
  intro a
  induction a with
  | nil =>
    intro b _ hba
    cases b with
    | nil => rfl
    | cons y ys => simp [nameLE] at hba
  | cons x xs ih =>
    intro b hab hba
    cases b with
    | nil => simp [nameLE] at hab
    | cons y ys =>
      rw [nameLE] at hab hba
      by_cases hxy : x = y
      · subst hxy
        rw [if_pos rfl] at hab hba
        rw [ih ys hab hba]
      · rw [if_neg hxy] at hab
        have h1 : x < y := of_decide_eq_true hab
        have hyx : ¬y = x := fun h => hxy h.symm
        rw [if_neg hyx] at hba
        have h2 : y < x := of_decide_eq_true hba
        exact absurd h1 (not_lt.mpr h2.le)

theorem strLE_refl (a : String) : strLE a a = true := nameLE_refl a.data

theorem strLE_total (a b : String) : strLE a b = true ∨ strLE b a = true :=
  nameLE_total a.data b.data

theorem strLE_trans (a b c : String) (h1 : strLE a b = true) (h2 : strLE b c = true) :
    strLE a c = true := nameLE_trans a.data b.data c.data h1 h2

theorem strLE_antisymm (a b : String) (h1 : strLE a b = true) (h2 : strLE b a = true) :
    a = b := by
  have h := nameLE_antisymm a.data b.data h1 h2
  cases a; cases b
  exact congrArg String.mk h

/-! ## Lemmas about the ranking orders -/

theorem comboLE_trans (a b c : Combo) (h1 : comboLE a b = true)
    (h2 : comboLE b c = true) : comboLE a c = true := by
  rw [comboLE] at h1 h2 ⊢
  exact decide_eq_true (le_trans (of_decide_eq_true h1) (of_decide_eq_true h2))

theorem comboLE_total (a b : Combo) : comboLE a b = true ∨ comboLE b a = true := by
  rw [comboLE, comboLE]
  rcases le_total (comboKey a) (comboKey b) with h | h
  · exact Or.inl (decide_eq_true h)
  · exact Or.inr (decide_eq_true h)

theorem keyLE_trans (a b c : Bool × ℚ) (h1 : keyLE a b = true)
    (h2 : keyLE b c = true) : keyLE a c = true := by
  rw [keyLE] at h1 h2 ⊢
  by_cases hab : a.1 = b.1
  · rw [if_pos hab] at h1
    by_cases hbc : b.1 = c.1
    · rw [if_pos hbc] at h2
      rw [if_pos (hab.trans hbc)]
      exact decide_eq_true (le_trans (of_decide_eq_true h1) (of_decide_eq_true h2))
    · rw [if_neg hbc] at h2
      have hb : b.1 = false := by simpa using h2
      rw [if_neg (by rw [hab]; exact hbc)]
      simp [hab, hb]
  · rw [if_neg hab] at h1
    have ha : a.1 = false := by simpa using h1
    have hb : b.1 = true := by
      cases hb' : b.1
      · exact absurd (ha.trans hb'.symm) hab
      · rfl
    by_cases hbc : b.1 = c.1
    · rw [if_neg (by rw [← hbc]; exact hab)]
      simp [ha]
    · rw [if_neg hbc] at h2
      have hb' : b.1 = false := by simpa using h2
      rw [hb] at hb'
      exact absurd hb' (by simp)

theorem keyLE_total (a b : Bool × ℚ) : keyLE a b = true ∨ keyLE b a = true := by
  rw [keyLE, keyLE]
  by_cases hab : a.1 = b.1
  · rw [if_pos hab, if_pos hab.symm]
    rcases le_total a.2 b.2 with h | h
    · exact Or.inl (decide_eq_true h)
    · exact Or.inr (decide_eq_true h)
  · have hba : ¬b.1 = a.1 := fun h => hab h.symm
    rw [if_neg hab, if_neg hba]
    cases ha : a.1
    · simp
    · cases hb : b.1
      · simp
      · exact absurd (ha.trans hb.symm) hab

theorem selLE_trans (a b c : Enriched) (h1 : selLE a b = true)
    (h2 : selLE b c = true) : selLE a c = true :=
  keyLE_trans (selKey a) (selKey b) (selKey c) h1 h2

theorem selLE_total (a b : Enriched) : selLE a b = true ∨ selLE b a = true :=
  keyLE_total (selKey a) (selKey b)

/-! ## Lemmas about latest_file -/

theorem latest_file_none_iff (dir : List String) (pat : String) :
    latest_file dir pat = none ↔ ∀ n ∈ dir, globMatch pat n = false := by
  rw [latest_file, List.getLast?_eq_none_iff]
  constructor
  · intro h n hn
    have hperm := pySorted_perm strLE (dir.filter fun n => globMatch pat n)
    rw [h] at hperm
    have hfil : dir.filter (fun n => globMatch pat n) = [] := hperm.symm.eq_nil
    by_contra hmatch
    have : n ∈ dir.filter fun n => globMatch pat n :=
      List.mem_filter.mpr ⟨hn, by simpa using hmatch⟩
    rw [hfil] at this
    simp at this
  · intro h
    have hfil : dir.filter (fun n => globMatch pat n) = [] :=
      List.filter_eq_nil_iff.mpr fun n hn => by simp [h n hn]
    rw [hfil]
    rfl

theorem latest_file_some {dir : List String} {pat : String} {m : String}
    (h : latest_file dir pat = some m) :
    m ∈ dir ∧ globMatch pat m = true ∧
      ∀ n ∈ dir, globMatch pat n = true → strLE n m = true := by
  rw [latest_file] at h
  have hperm := pySorted_perm strLE (dir.filter fun n => globMatch pat n)
  have hmem : m ∈ pySorted strLE (dir.filter fun n => globMatch pat n) :=
    List.mem_of_mem_getLast? (by rw [h]; rfl)
  have hmfil : m ∈ dir.filter (fun n => globMatch pat n) := hperm.mem_iff.mp hmem
  rcases List.mem_filter.mp hmfil with ⟨hmdir, hmmatch⟩
  refine ⟨hmdir, hmmatch, ?_⟩
  intro n hn hnmatch
  have hnfil : n ∈ dir.filter (fun n => globMatch pat n) :=
    List.mem_filter.mpr ⟨hn, hnmatch⟩
  have hnsorted : n ∈ pySorted strLE (dir.filter fun n => globMatch pat n) :=
    hperm.mem_iff.mpr hnfil
  have hpw := pySorted_pairwise strLE strLE_trans
    (fun a b => strLE_total a b) (dir.filter fun n => globMatch pat n)
  rcases pairwise_getLast?_rel hpw h n hnsorted with rfl | hrel
  · exact strLE_refl n
  · exact hrel

/-! ## Claim theorems -/

/-- Claim C9: for every directory state and glob pattern, `latest_file`
returns the lexicographically greatest matching filename (hence, under the
fixed `YYYYMMDD_HHMMSS` naming, the chronologically newest artifact),
independent of the file system's listing order, and returns `none` — without
raising — when no file matches. -/
theorem latest_file_returns_lex_greatest (dir dir' : List String) (pat : String)
    (hperm : dir.Perm dir') :
    (latest_file dir pat = none ↔ ∀ n ∈ dir, globMatch pat n = false) ∧
    (∀ m, latest_file dir pat = some m →
      m ∈ dir ∧ globMatch pat m = true ∧
      ∀ n ∈ dir, globMatch pat n = true → strLE n m = true) ∧
    latest_file dir pat = latest_file dir' pat := by
  refine ⟨latest_file_none_iff dir pat, fun m hm => latest_file_some hm, ?_⟩
  cases h1 : latest_file dir pat with
  | none =>
    have hall := (latest_file_none_iff dir pat).mp h1
    have : latest_file dir' pat = none :=
      (latest_file_none_iff dir' pat).mpr fun n hn => hall n (hperm.mem_iff.mpr hn)
    rw [this]
  | some m =>
    cases h2 : latest_file dir' pat with
    | none =>
      have hall := (latest_file_none_iff dir' pat).mp h2
      rcases latest_file_some h1 with ⟨hmdir, hmmatch, _⟩
      have := hall m (hperm.mem_iff.mp hmdir)
      rw [hmmatch] at this
      exact absurd this (by simp)
    | some m' =>
      rcases latest_file_some h1 with ⟨hmdir, hmmatch, hmax⟩
      rcases latest_file_some h2 with ⟨hmdir', hmmatch', hmax'⟩
      have hle1 : strLE m m' = true := hmax' m (hperm.mem_iff.mp hmdir) hmmatch
      have hle2 : strLE m' m = true := hmax m' (hperm.mem_iff.mpr hmdir') hmmatch'
      rw [strLE_antisymm m m' hle1 hle2]

/-- Witness for C9 at a concrete directory: two listing orders of the same
directory give the same result. -/
theorem latest_file_returns_lex_greatest_witness :
    latest_file ["projections_20240102_120000.csv", "projections_20240101_000000.csv"]
        "projections_*.csv" =
      latest_file ["projections_20240101_000000.csv", "projections_20240102_120000.csv"]
        "projections_*.csv" :=
  (latest_file_returns_lex_greatest
    ["projections_20240102_120000.csv", "projections_20240101_000000.csv"]
    ["projections_20240101_000000.csv", "projections_20240102_120000.csv"]
    "projections_*.csv" (by decide)).2.2

theorem find?_name_nodup : ∀ {dir : List (String × String)} {m t : String},
    (dir.map Prod.fst).Nodup → (m, t) ∈ dir →
    dir.find? (fun e => e.1 == m) = some (m, t) := by
  intro dir
  induction dir with
  | nil => intro m t _ hmem; simp at hmem
  | cons a as ih =>
    intro m t hnodup hmem
    rw [List.map_cons] at hnodup
    rcases List.nodup_cons.mp hnodup with ⟨hnotin, hnd⟩
    rcases List.mem_cons.mp hmem with rfl | hmem'
    · exact List.find?_cons_of_pos _ (by simp)
    · by_cases ha : a.1 = m
      · exfalso
        apply hnotin
        rw [ha]
        exact List.mem_map_of_mem Prod.fst hmem'
      · rw [List.find?_cons_of_neg _ (by simp [ha])]
        exact ih hnd hmem'

theorem find?_name_none {dir : List (String × String)} {p : String}
    (hnp : ∀ t, (p, t) ∉ dir) : dir.find? (fun e => e.1 == p) = none := by
  rw [List.find?_eq_none]
  intro e he
  simp only [beq_iff_eq]
  intro hep
  apply hnp e.2
  have : (p, e.2) = e := by rw [← hep]
  rw [this]
  exact he

/-- Claim C10: `load_json(path_or_name)` returns the parsed contents of the
file at that path if it exists; otherwise it treats the argument as a glob
pattern and returns the parsed contents of the lexicographically greatest
matching file; and it returns `None` — rather than raising — when the path
does not exist and no file matches the pattern. -/
theorem load_json_dispatch {J : Type _} (loads : String → Except Unit J)
    (dir : List (String × String)) (p : String)
    (hnodup : (dir.map Prod.fst).Nodup) :
    (∀ t, (p, t) ∈ dir → load_json loads dir p = (loads t).map some) ∧
    ((∀ t, (p, t) ∉ dir) →
      ∀ m t, (m, t) ∈ dir → globMatch p m = true →
        (∀ n ∈ dir.map Prod.fst, globMatch p n = true → strLE n m = true) →
        load_json loads dir p = (loads t).map some) ∧
    ((∀ t, (p, t) ∉ dir) → (∀ n ∈ dir.map Prod.fst, globMatch p n = false) →
      load_json loads dir p = .ok none) := by
  refine ⟨?_, ?_, ?_⟩
  · intro t ht
    rw [load_json, find?_name_nodup hnodup ht]
  · intro hnp m t hmt hmatch hmax
    have hm_in : m ∈ dir.map Prod.fst := List.mem_map_of_mem Prod.fst hmt
    cases hlf : latest_file (dir.map Prod.fst) p with
    | none =>
      have := (latest_file_none_iff _ _).mp hlf m hm_in
      rw [hmatch] at this
      exact absurd this (by simp)
    | some m' =>
      rcases latest_file_some hlf with ⟨hm'dir, hm'match, hmax'⟩
      have h1 : strLE m' m = true := hmax m' hm'dir hm'match
      have h2 : strLE m m' = true := hmax' m hm_in hmatch
      have hmm : m' = m := strLE_antisymm m' m h1 h2
      subst hmm
      rw [load_json, find?_name_none hnp, hlf]
      simp only [find?_name_nodup hnodup hmt]
  · intro hnp hnone
    rw [load_json, find?_name_none hnp, (latest_file_none_iff _ _).mpr hnone]

/-- Witness for C10: a present path is read and parsed. -/
theorem load_json_dispatch_witness :
    load_json (fun s => Except.ok s) [("a.json", "x")] "a.json" =
      Except.ok (some "x") :=
  (load_json_dispatch (fun s => Except.ok s) [("a.json", "x")] "a.json"
    (by decide)).1 "x" (by decide)

/-- Claim C1 (code bug in `recompute_projections`): the glob
`projections_*.csv` also matches the canonical pointer
`projections_latest.csv`, and `latest` sorts lexicographically after every
timestamped name (the letter `l` is greater than every digit), so on any run
where the canonical pointer already exists the code selects the canonical
pointer itself — not the newest timestamped artifact — as the publish target
and symlinks `projections_latest.csv` to itself. This evaluates the code on
such a directory. -/
theorem recompute_projections_selects_canonical :
    (recompute_projections true
      [.regular "projections_20240101_000000.csv",
       .symlink "projections_latest.csv" "projections_20240101_000000.csv"]).1
      = true ∧
    resolveLink
      (recompute_projections true
        [.regular "projections_20240101_000000.csv",
         .symlink "projections_latest.csv" "projections_20240101_000000.csv"]).2
      "projections_latest.csv" = some "projections_latest.csv" :=
  ⟨by decide, by decide⟩

/-- Claim C2 (code bug in `american_to_decimal`): an input that parses to the
integer zero passes the `try`-protected `int(a)` parse, falls into the
negative branch and evaluates `100.0 / (-0)`, raising `ZeroDivisionError`;
the exception propagates out of `suggest_parlays`, aborting the request. -/
theorem american_to_decimal_zero_raises :
    american_to_decimal (.intLike 0) = .error () ∧
    suggest_parlays [⟨some "A", some (1/2), some (.intLike 0)⟩] 6 20 =
      .error () :=
  ⟨rfl, rfl⟩

/-- Unfolding of a successful `suggest_parlays` run on a non-empty input. -/
theorem suggest_parlays_ok {selections : List Selection} {max_legs : ℕ}
    {top_k : ℤ} {out : List Enriched} {res : RankedResult}
    (hne : selections ≠ [])
    (henr : enrichAll selections = .ok out)
    (h : suggest_parlays selections max_legs top_k = .ok res) :
    res = ⟨pySorted selLE out,
      pySliceTo (pySorted comboLE (parlayCombos (pySorted selLE out)
        (min max_legs (pySorted selLE out).length))) top_k⟩ := by
  rw [suggest_parlays, if_neg hne, henr, ok_bind] at h
  have h' : Except.ok (⟨pySorted selLE out,
      pySliceTo (pySorted comboLE (parlayCombos (pySorted selLE out)
        (min max_legs (pySorted selLE out).length))) top_k⟩ : RankedResult)
      = Except.ok res := h
  injection h' with h''
  exact h''.symm

/-- The combination sort key is the negated break-even-defaulted EV. -/
theorem comboKey_eq (c : Combo) : comboKey c = -(c.ev_per_1.getD 0) := by
  rw [comboKey]
  cases c.ev_per_1 with
  | none => simp
  | some e => simp

/-- Claim C8: in the `selected` list, every entry with a defined `ev_per_1`
precedes every entry with an undefined one, the defined entries appear in
descending `ev_per_1` order, and the list is a permutation of the enriched
input selections. -/
theorem suggest_parlays_selected_order (selections : List Selection)
    (max_legs : ℕ) (top_k : ℤ) (out : List Enriched) (res : RankedResult)
    (henr : enrichAll selections = .ok out)
    (h : suggest_parlays selections max_legs top_k = .ok res) :
    res.selected.Pairwise (fun a b =>
      (b.ev_per_1.isSome = true → a.ev_per_1.isSome = true) ∧
      ∀ ea eb, a.ev_per_1 = some ea → b.ev_per_1 = some eb → eb ≤ ea) ∧
    res.selected.Perm out := by
  by_cases hne : selections = []
  · subst hne
    simp only [enrichAll, Except.ok.injEq] at henr
    rw [suggest_parlays, if_pos rfl] at h
    injection h with h'
    rw [← h', ← henr]
    exact ⟨List.Pairwise.nil, List.Perm.refl _⟩
  · have hres := suggest_parlays_ok hne henr h
    subst hres
    refine ⟨?_, pySorted_perm selLE out⟩
    have hpw := pySorted_pairwise selLE selLE_trans selLE_total out
    refine hpw.imp ?_
    intro a b hab
    rw [selLE, keyLE] at hab
    constructor
    · intro hbsome
      cases hbv : b.ev_per_1 with
      | none => rw [hbv] at hbsome; simp at hbsome
      | some eb =>
        cases hav : a.ev_per_1 with
        | some ea => simp
        | none =>
          exfalso
          have h1 : (selKey a).1 = true := by simp [selKey, hav]
          have h2 : (selKey b).1 = false := by simp [selKey, hbv]
          rw [if_neg (by rw [h1, h2]; simp), h1] at hab
          simp at hab
    · intro ea eb hea heb
      have hsame : (selKey a).1 = (selKey b).1 := by
        rw [selKey, selKey]
        simp [hea, heb]
      rw [if_pos hsame] at hab
      have hle : (selKey a).2 ≤ (selKey b).2 := of_decide_eq_true hab
      rw [selKey, selKey] at hle
      simp only [pyOrZero, hea, heb, Option.getD_some] at hle
      linarith

/-- Claim C7: combinations appear in descending order of `ev_per_1`, an
absent EV comparing as 0 (ranked at break-even, not excluded), and the
returned list is the first `top_k` elements of that sorted order. -/
theorem suggest_parlays_ranking (selections : List Selection)
    (max_legs : ℕ) (top_k : ℤ) (out : List Enriched) (res : RankedResult)
    (hne : selections ≠ [])
    (henr : enrichAll selections = .ok out)
    (h : suggest_parlays selections max_legs top_k = .ok res)
    (htk : 0 ≤ top_k) :
    res.parlay_suggestions.Pairwise
      (fun a b => b.ev_per_1.getD 0 ≤ a.ev_per_1.getD 0) ∧
    res.parlay_suggestions =
      (pySorted comboLE (parlayCombos (pySorted selLE out)
        (min max_legs out.length))).take top_k.toNat := by
  have hres := suggest_parlays_ok hne henr h
  subst hres
  have hlen : (pySorted selLE out).length = out.length :=
    (pySorted_perm selLE out).length_eq
  rw [hlen] at *
  constructor
  · have hpw := pySorted_pairwise comboLE comboLE_trans comboLE_total
      (parlayCombos (pySorted selLE out) (min max_legs out.length))
    have hpw' : (pySorted comboLE (parlayCombos (pySorted selLE out)
        (min max_legs out.length))).Pairwise
        (fun a b => b.ev_per_1.getD 0 ≤ a.ev_per_1.getD 0) := by
      refine hpw.imp ?_
      intro a b hab
      rw [comboLE] at hab
      have hle : comboKey a ≤ comboKey b := of_decide_eq_true hab
      rw [comboKey_eq, comboKey_eq] at hle
      linarith
    simp only [pySliceTo, if_pos htk]
    exact hpw'.sublist (List.take_sublist _ _)
  · simp only [pySliceTo, if_pos htk]

/-- Witness for C7: a one-selection run with the default `top_k`. -/
theorem suggest_parlays_ranking_witness :
    (RankedResult.mk [⟨some "A", none, none, none, none⟩]
        [mkCombo [⟨some "A", none, none, none, none⟩]]).parlay_suggestions =
      (pySorted comboLE (parlayCombos
        (pySorted selLE [⟨some "A", none, none, none, none⟩])
        (min 6 ([(⟨some "A", none, none, none, none⟩ : Enriched)]).length))).take
        (20 : ℤ).toNat :=
  (suggest_parlays_ranking [⟨some "A", none, none⟩] 6 20
    [⟨some "A", none, none, none, none⟩]
    ⟨[⟨some "A", none, none, none, none⟩], [mkCombo [⟨some "A", none, none, none, none⟩]]⟩
    (by decide) rfl rfl (by decide)).2

/-- Witness for C8: the `selected` list of that run is a permutation of the
enriched input. -/
theorem suggest_parlays_selected_order_witness :
    (RankedResult.mk [⟨some "B", none, none, none, none⟩]
        [mkCombo [⟨some "B", none, none, none, none⟩]]).selected.Perm
      [(⟨some "B", none, none, none, none⟩ : Enriched)] :=
  (suggest_parlays_selected_order [⟨some "B", none, none⟩] 6 20
    [⟨some "B", none, none, none, none⟩]
    ⟨[⟨some "B", none, none, none, none⟩], [mkCombo [⟨some "B", none, none, none, none⟩]]⟩
    rfl rfl).2

/-- The list-sum of binomial coefficients over `range' 1 m` is the
`Finset.Icc` sum. -/
theorem sum_range'_choose (n m : ℕ) :
    ((List.range' 1 m).map (fun r => n.choose r)).sum =
      ∑ r ∈ Finset.Icc 1 m, n.choose r := by
  induction m with
  | zero => simp
  | succ m ih =>
    rw [List.range'_concat, List.map_append, List.sum_append,
      Finset.sum_Icc_succ_top (by omega)]
    simp [ih, Nat.add_comm]

/-- Claim C5: with `n = len(selections) ≥ 1` and effective max legs
`m = min(max_legs, n)`, the number of combinations computed before truncation
equals `Σ_{r=1}^{m} C(n, r)`; the enumerated subsets are exactly the
subsequences of the sorted list of each size `1..m` — no repeated member
inside a subset, and no duplicate subsets. -/
theorem suggest_parlays_combination_count (selections : List Selection)
    (out : List Enriched) (max_legs : ℕ)
    (henr : enrichAll selections = .ok out)
    (_hne : 1 ≤ selections.length) :
    ((parlayCombos (pySorted selLE out) (min max_legs selections.length)).length
      = ∑ r ∈ Finset.Icc 1 (min max_legs selections.length),
          (selections.length).choose r) ∧
    (∀ s ∈ (List.range' 1 (min max_legs selections.length)).flatMap
        (fun r => pyCombinations (pySorted selLE out) r),
      s.Sublist (pySorted selLE out) ∧ 1 ≤ s.length ∧
        s.length ≤ min max_legs selections.length) ∧
    (∀ s : List Enriched, s.Sublist (pySorted selLE out) → 1 ≤ s.length →
      s.length ≤ min max_legs selections.length →
      s ∈ (List.range' 1 (min max_legs selections.length)).flatMap
        (fun r => pyCombinations (pySorted selLE out) r)) ∧
    ((pySorted selLE out).Nodup →
      ((List.range' 1 (min max_legs selections.length)).flatMap
        (fun r => pyCombinations (pySorted selLE out) r)).Nodup) := by
  have hlen : (pySorted selLE out).length = selections.length :=
    (pySorted_perm selLE out).length_eq.trans (enrichAll_length henr)
  refine ⟨?_, ?_, ?_, ?_⟩
  · rw [parlayCombos, List.length_flatMap]
    have hmap : (List.range' 1 (min max_legs selections.length)).map
        (List.length ∘ fun r => (pyCombinations (pySorted selLE out) r).map mkCombo)
        = (List.range' 1 (min max_legs selections.length)).map
          (fun r => (selections.length).choose r) := by
      refine List.map_congr_left ?_
      intro r _
      simp [length_pyCombinations, hlen]
    rw [hmap, sum_range'_choose]
  · intro s hs
    rw [List.mem_flatMap] at hs
    rcases hs with ⟨r, hr, hs⟩
    rcases mem_pyCombinations.mp hs with ⟨hsub, hslen⟩
    rw [List.mem_range'_1] at hr
    exact ⟨hsub, by omega, by omega⟩
  · intro s hsub h1 h2
    rw [List.mem_flatMap]
    refine ⟨s.length, ?_, mem_pyCombinations.mpr ⟨hsub, rfl⟩⟩
    rw [List.mem_range'_1]
    omega
  · intro hnd
    rw [List.nodup_flatMap]
    constructor
    · intro r _
      exact nodup_pyCombinations hnd r
    · have hlt := List.pairwise_lt_range' 1 (min max_legs selections.length) 1
      refine hlt.imp ?_
      intro r r' hrr'
      intro s hsr hsr'
      rcases mem_pyCombinations.mp hsr with ⟨_, hl1⟩
      rcases mem_pyCombinations.mp hsr' with ⟨_, hl2⟩
      omega

/-- Witness for C5: two selections, `max_legs = 6`, so the effective size is
2 and the count is `C(2,1) + C(2,2) = 3`. -/
theorem suggest_parlays_combination_count_witness :
    (parlayCombos (pySorted selLE
        [⟨some "A", none, none, none, none⟩, ⟨some "B", none, none, none, none⟩])
        (min 6 ([(⟨some "A", none, none⟩ : Selection),
          ⟨some "B", none, none⟩]).length)).length =
      ∑ r ∈ Finset.Icc 1 (min 6 ([(⟨some "A", none, none⟩ : Selection),
          ⟨some "B", none, none⟩]).length),
        (([(⟨some "A", none, none⟩ : Selection), ⟨some "B", none, none⟩]).length).choose r :=
  (suggest_parlays_combination_count
    [⟨some "A", none, none⟩, ⟨some "B", none, none⟩]
    [⟨some "A", none, none, none, none⟩, ⟨some "B", none, none, none, none⟩]
    6 rfl (by decide)).1

/-- Claim C6: every combination enumerated by the engine has `joint_prob`
equal to the product of its legs' `model_prob`s with an absent probability
contributing a factor 0, `implied_payout` equal to the product of its legs'
`decimal`s with an absent decimal contributing a factor 1.0, and
`ev_per_1 = joint_prob * implied_payout - 1.0`. -/
theorem parlay_combo_values (selections : List Selection) (out : List Enriched)
    (m : ℕ) (henr : enrichAll selections = .ok out) :
    ∀ c ∈ parlayCombos (pySorted selLE out) m, ∃ legs : List Enriched,
      (∀ e ∈ legs, e ∈ out) ∧ c = mkCombo legs ∧
      c.joint_prob = (legs.map fun e => e.model_prob.getD 0).prod ∧
      c.implied_payout = (legs.map fun e =>
        match e.decimal with
        | some d => d
        | none => 1).prod ∧
      c.ev_per_1 = some (c.joint_prob * c.implied_payout - 1) := by
  intro c hc
  rw [parlayCombos, List.mem_flatMap] at hc
  rcases hc with ⟨r, _, hc⟩
  rw [List.mem_map] at hc
  rcases hc with ⟨legs, hlegs, rfl⟩
  rcases mem_pyCombinations.mp hlegs with ⟨hsub, _⟩
  have hmem : ∀ e ∈ legs, e ∈ out := fun e he =>
    (pySorted_perm selLE out).mem_iff.mp (hsub.mem he)
  refine ⟨legs, hmem, rfl, ?_, ?_, rfl⟩
  · show (legs.map fun c => pyOrZero c.model_prob).foldl (· * ·) 1
      = (legs.map fun e => e.model_prob.getD 0).prod
    rw [List.prod_eq_foldl]
    rfl
  · show (legs.map fun c => pyOrZero c.decimal).foldl
        (fun acc d => acc * (if d = 0 then 1 else d)) 1
      = (legs.map fun e =>
          match e.decimal with
          | some d => d
          | none => 1).prod
    have step1 : (legs.map fun c => pyOrZero c.decimal).foldl
        (fun acc d => acc * (if d = 0 then 1 else d)) 1
        = (legs.map fun c =>
            if pyOrZero c.decimal = 0 then 1 else pyOrZero c.decimal).prod := by
      rw [List.prod_eq_foldl, List.foldl_map, List.foldl_map]
    rw [step1]
    congr 1
    refine List.map_congr_left ?_
    intro e he
    rcases enrichAll_mem henr e (hmem e he) with ⟨s, _, hs⟩
    cases hd : e.decimal with
    | none => simp [pyOrZero, hd]
    | some d =>
      have hpos : 1 < d := enrich_decimal_pos hs hd
      have hne : ¬(d = 0) := by intro h0; rw [h0] at hpos; norm_num at hpos
      simp [pyOrZero, hd, hne]

/-- Witness for C6 on the single combination of a one-selection run. -/
theorem parlay_combo_values_witness :
    ∃ legs : List Enriched,
      (∀ e ∈ legs, e ∈ [(⟨some "C", none, none, none, none⟩ : Enriched)]) ∧
      mkCombo [(⟨some "C", none, none, none, none⟩ : Enriched)] = mkCombo legs ∧
      (mkCombo [(⟨some "C", none, none, none, none⟩ : Enriched)]).joint_prob
        = (legs.map fun e => e.model_prob.getD 0).prod ∧
      (mkCombo [(⟨some "C", none, none, none, none⟩ : Enriched)]).implied_payout
        = (legs.map fun e =>
            match e.decimal with
            | some d => d
            | none => 1).prod ∧
      (mkCombo [(⟨some "C", none, none, none, none⟩ : Enriched)]).ev_per_1
        = some ((mkCombo [(⟨some "C", none, none, none, none⟩ : Enriched)]).joint_prob
            * (mkCombo [(⟨some "C", none, none, none, none⟩ : Enriched)]).implied_payout - 1) :=
  parlay_combo_values [⟨some "C", none, none⟩]
    [⟨some "C", none, none, none, none⟩] 1 rfl
    (mkCombo [⟨some "C", none, none, none, none⟩]) (List.Mem.head _)

/-- Claim C4: per-selection enrichment: `decimal = 1 + a/100` for a positive
parsed price `a`, `decimal = 1 + 100/(-a)` for a negative one,
`ev_per_1 = model_prob * decimal - 1.0` exactly when both inputs are present,
and an absent or unparseable input leaves the derived field absent, never
defaulted to a number. -/
theorem enrich_fields (s : Selection) (e : Enriched) (h : enrich s = .ok e) :
    (∀ a : ℤ, s.market_price = some (.intLike a) → 0 < a →
      e.decimal = some (1 + (a : ℚ) / 100)) ∧
    (∀ a : ℤ, s.market_price = some (.intLike a) → a < 0 →
      e.decimal = some (1 + 100 / (-(a : ℚ)))) ∧
    (∀ mp d, s.model_prob = some mp → e.decimal = some d →
      e.ev_per_1 = some (mp * d - 1)) ∧
    (s.market_price = none → e.decimal = none) ∧
    (s.market_price = some .unparseable → e.decimal = none) ∧
    (s.model_prob = none → e.ev_per_1 = none) ∧
    (e.decimal = none → e.ev_per_1 = none) := by
  have hpos : ∀ d, e.decimal = some d → 1 < d :=
    fun d hd => enrich_decimal_pos h hd
  rcases enrich_ok h with ⟨dec, hdec, rfl⟩
  refine ⟨?_, ?_, ?_, ?_, ?_, ?_, ?_⟩
  · intro a hmp ha
    rw [hmp] at hdec
    simp only [american_to_decimal] at hdec
    rw [if_pos ha] at hdec
    injection hdec with h'
    exact h'.symm
  · intro a hmp ha
    rw [hmp] at hdec
    simp only [american_to_decimal] at hdec
    rw [if_neg (not_lt.mpr (le_of_lt ha))] at hdec
    have hz : ¬(-(a : ℚ) = 0) := by
      intro h0
      have ha0 : (a : ℚ) = 0 := by linarith
      have : a = 0 := by exact_mod_cast ha0
      omega
    rw [pyDiv, if_neg hz, ok_bind, pure_eq_ok] at hdec
    injection hdec with h'
    exact h'.symm
  · intro mp d hmp hd
    have h1 : (1 : ℚ) < d := hpos d hd
    have hne : ¬(d = 0) := by intro h0; rw [h0] at h1; norm_num at h1
    have hd' : dec = some d := hd
    subst hd'
    show (match (some d : Option ℚ), s.model_prob with
      | some d, some mp => if d = 0 then none else some (mp * d - 1)
      | _, _ => none) = some (mp * d - 1)
    rw [hmp]
    simp [hne]
  · intro hmp
    rw [hmp] at hdec
    injection hdec with h'
    exact h'.symm
  · intro hmp
    rw [hmp] at hdec
    simp only [american_to_decimal] at hdec
    injection hdec with h'
    exact h'.symm
  · intro hmp
    show (match dec, s.model_prob with
      | some d, some mp => if d = 0 then none else some (mp * d - 1)
      | _, _ => none) = none
    rw [hmp]
    cases dec <;> rfl
  · intro hdec0
    have hdec0' : dec = none := hdec0
    subst hdec0'
    show (match (none : Option ℚ), s.model_prob with
      | some d, some mp => if d = 0 then none else some (mp * d - 1)
      | _, _ => none) = none
    cases s.model_prob <;> rfl

/-- Witness for C4 at the spec's worked example: price −110 gives decimal
`1 + 100/110 = 21/11` and, with probability 1/2, EV `−1/22`. -/
theorem enrich_fields_witness :
    (⟨some "A", some (1/2), some (.intLike (-110)), some (21/11),
        some (-1/22)⟩ : Enriched).decimal
      = some (1 + 100 / (-((-110 : ℤ) : ℚ))) ∧
    (⟨some "A", some (1/2), some (.intLike (-110)), some (21/11),
        some (-1/22)⟩ : Enriched).ev_per_1
      = some ((1 : ℚ)/2 * (21/11) - 1) := by
  have hE : enrich ⟨some "A", some (1/2), some (.intLike (-110))⟩ =
      .ok ⟨some "A", some (1/2), some (.intLike (-110)), some (21/11),
        some (-1/22)⟩ := by
    simp only [enrich, american_to_decimal, pyDiv, Except.bind]
    norm_num
  have hc := enrich_fields ⟨some "A", some (1/2), some (.intLike (-110))⟩ _ hE
  refine ⟨hc.2.1 (-110) rfl (by norm_num), ?_⟩
  have := hc.2.2.1 (1/2) (21/11) rfl rfl
  rw [this]

/-- Claim C3 as stated is false: with two priced selections and
`top_k = -1 ≤ 0`, the Python slice `combos_sorted[:top_k]` drops only the
last of the three combinations, so `suggest_parlays` returns 2 suggestions,
not zero. -/
theorem negative_topk_counterexample :
    (suggest_parlays
      [⟨some "A", some (1/2), some (.intLike 100)⟩,
       ⟨some "B", some (1/2), some (.intLike 100)⟩] 6 (-1)).map
      (fun r => r.parlay_suggestions.length) = .ok 2 := by
  simp only [suggest_parlays, enrichAll, enrich, american_to_decimal, pyDiv,
    Except.bind, Except.instMonad, Except.map, Except.pure, bind, pure,
    reduceCtorEq, reduceIte]
  norm_num [pySorted, insertLE, selLE, selKey, keyLE, pyOrZero, parlayCombos,
    pyCombinations, mkCombo, comboLE, comboKey, pySliceTo, List.range']

/-- Claim C3 amended: for `top_k = 0` the engine returns zero suggestions;
for negative `top_k` Python slice semantics apply instead: the last `-top_k`
sorted combinations are dropped, which yields an empty list only when
`-top_k` is at least the number of combinations. -/
theorem suggest_parlays_nonpositive_topk (selections : List Selection)
    (max_legs : ℕ) (top_k : ℤ) (out : List Enriched) (res : RankedResult)
    (hne : selections ≠ [])
    (henr : enrichAll selections = .ok out)
    (h : suggest_parlays selections max_legs top_k = .ok res) :
    (top_k = 0 → res.parlay_suggestions = []) ∧
    (top_k < 0 →
      res.parlay_suggestions =
        (pySorted comboLE (parlayCombos (pySorted selLE out)
          (min max_legs out.length))).take
          ((pySorted comboLE (parlayCombos (pySorted selLE out)
            (min max_legs out.length))).length - (-top_k).toNat)) := by
  have hres := suggest_parlays_ok hne henr h
  subst hres
  have hlen : (pySorted selLE out).length = out.length :=
    (pySorted_perm selLE out).length_eq
  rw [hlen]
  constructor
  · intro h0
    subst h0
    simp [pySliceTo]
  · intro hneg
    simp only [pySliceTo, if_neg (not_le.mpr hneg)]

/-- Witness for the amended C3: a one-selection run with `top_k = 0` has no
suggestions. -/
theorem suggest_parlays_nonpositive_topk_witness :
    (RankedResult.mk [⟨some "D", none, none, none, none⟩] []).parlay_suggestions
      = [] :=
  (suggest_parlays_nonpositive_topk [⟨some "D", none, none⟩] 6 0
    [⟨some "D", none, none, none, none⟩]
    ⟨[⟨some "D", none, none, none, none⟩], []⟩
    (by decide) rfl rfl).1 rfl

end Somewhere

